import Mathlib

/-!
Verification of the Meshtastic MQTT filter (mqtt_filter.py) against its
natural-language specification.

The development is a shallow embedding of the Python source:

* machine integers and bytes are modelled as `Nat` (bytes are `Nat` values,
  kept below 256 by the operations that produce them);
* the protobuf messages `ServiceEnvelope`, `MeshPacket` and `Data` are
  modelled as Lean structures; a proto3 oneof / optional field becomes an
  `Option`, so that the dynamic `HasField` probe of the Python code becomes
  an `Option.isSome` test;
* the two cryptographic primitives the code calls out to (SHA-256 and the
  AES-CTR keystream of the cryptography library) are external library code
  with no source in this repository; they are modelled as parameters
  (`CryptoPrims`): an arbitrary digest function and an arbitrary
  key/nonce-indexed keystream.  Counter mode is faithfully modelled as
  XOR of the data with that keystream, which is the only property of the
  mode the code relies on;
* protobuf wire serialization of `Data` (`ParseFromString` /
  `SerializeToString` of the protobuf library) is modelled by an
  executable varint-based encoder and parser for the three `Data` fields
  the program reads (`portnum` = field 1, `payload` = field 2,
  `bitfield` = field 9, with unknown fields skipped as the real parser
  does);
* the fallible Python paths (a `try`/`except` swallowing an exception)
  become `Option`-valued observations or explicit early returns: an MQTT
  message whose payload fails `ServiceEnvelope.ParseFromString` is
  modelled with `payload = none`, and the ValueError that the debug
  formatting of mqtt_filter.py line 129 raises for every packet arriving
  with decoded data (an invalid literal format specifier in an eagerly
  evaluated f-string) is modelled as the corresponding early return in
  `onMessage`.
-/

/-- Statistics counter bag, mirroring the `self.stats` dictionary created in
`MeshtasticMQTTFilter.__init__` (mqtt_filter.py lines 70-78).  Note that the
source dictionary has exactly these seven keys; in particular there is no
`forwarded_exempt` counter in the code. -/
structure Stats where
  total : Nat
  forwarded : Nat
  rejected_encrypted : Nat
  rejected_no_bitfield : Nat
  rejected_bitfield_disabled : Nat
  decrypted : Nat
  decryption_failed : Nat
deriving DecidableEq, Repr

/-- The all-zero initial statistics of `__init__`. -/
def statsInit : Stats :=
  ⟨0, 0, 0, 0, 0, 0, 0⟩

/-- Meshtastic protobuf `Data` message, restricted to the fields the program
reads: `portnum` (field 1), `payload` (field 2) and the optional `bitfield`
(field 9, presence-tracked). -/
structure Data where
  portnum : Nat
  payload : List Nat
  bitfield : Option Nat
deriving DecidableEq, Repr

/-- Default `Data` value of proto3 (all fields at their defaults, optional
field absent); the starting accumulator of wire parsing. -/
def dataDefault : Data :=
  ⟨0, [], none⟩

/-- Meshtastic protobuf `MeshPacket`, restricted to the fields the program
reads.  The Python attribute `from` is named `fromId` here (`from` is a
reserved word); `decoded` and `encrypted` are the two branches of the
payload oneof, modelled as two options (so that `HasField` becomes
`isSome`). -/
structure MeshPacket where
  id : Nat
  fromId : Nat
  toId : Nat
  channel : Nat
  decoded : Option Data
  encrypted : Option (List Nat)
deriving DecidableEq, Repr

/-- Meshtastic protobuf `ServiceEnvelope`, restricted to the fields the
program reads. -/
structure ServiceEnvelope where
  channel_id : String
  gateway_id : String
  packet : MeshPacket
deriving DecidableEq, Repr

/-- An inbound MQTT message as seen by `on_message`: its topic and the
result of `ServiceEnvelope.ParseFromString` on its payload bytes (`none`
models a payload on which the protobuf parser raises, which the handler
catches). -/
structure MqttMsg where
  topic : String
  payload : Option ServiceEnvelope

/-- Configuration of the filter relevant to message processing: the
subscription topic, the output topic prefix and the ordered key ring built
in `__init__` (pairs of diagnostic name and raw key bytes). -/
structure FilterConfig where
  input_topic : String
  output_topic : String
  keys : List (String × List Nat)

/-- External cryptographic primitives called by the source but implemented
in third-party libraries (hashlib, cryptography): a 256-bit digest function
and the AES-CTR keystream, indexed by key bytes and nonce bytes and
producing the keystream byte at each position.  All theorems below are
parametric in these, hence hold for the real primitives. -/
structure CryptoPrims where
  sha256 : List Nat → List Nat
  aesCtrStream : List Nat → List Nat → Nat → Nat

/-- Embedding of `_check_ok_to_mqtt` (mqtt_filter.py lines 312-339).
Returns the updated statistics and the boolean verdict: `true` is the
Forward verdict, `false` is a rejection, with the incremented
`rejected_*` counter identifying which rejection.  The source consults
only `packet.decoded` (presence, then presence and value of its
bitfield); there is no exemption check of any kind in this function. -/
def checkOkToMqtt (stats : Stats) (pkt : MeshPacket) : Stats × Bool :=
  match pkt.decoded with
  | none =>
      ({ stats with rejected_encrypted := stats.rejected_encrypted + 1 }, false)
  | some d =>
      match d.bitfield with
      | some b =>
          if b &&& 0x01 ≠ 0 then
            (stats, true)
          else
            ({ stats with rejected_bitfield_disabled := stats.rejected_bitfield_disabled + 1 }, false)
      | none =>
          ({ stats with rejected_no_bitfield := stats.rejected_no_bitfield + 1 }, false)

/-- Faithful UTF-8 encoding of a single character from its code point,
modelling Python str.encode applied per character. -/
def charUtf8 (c : Char) : List Nat :=
  let n := c.toNat
  if n < 0x80 then [n]
  else if n < 0x800 then [0xC0 + n / 64, 0x80 + n % 64]
  else if n < 0x10000 then [0xE0 + n / 4096, 0x80 + n / 64 % 64, 0x80 + n % 64]
  else [0xF0 + n / 262144, 0x80 + n / 4096 % 64, 0x80 + n / 64 % 64, 0x80 + n % 64]

/-- UTF-8 bytes of a string, modelling Python channel_name.encode applied in
`_derive_key`. -/
def utf8Bytes (s : String) : List Nat :=
  s.data.foldr (fun c acc => charUtf8 c ++ acc) []

/-- Embedding of `_derive_key` (mqtt_filter.py lines 199-223): for a
non-empty channel name, the digest of the base key followed by the UTF-8
bytes of the channel name; otherwise the base key unchanged.  The source
guard is the redundant conjunction of Python truthiness and inequality
with the empty string, both equivalent to non-emptiness. -/
def deriveKey (cp : CryptoPrims) (base_key : List Nat) (channel_name : String) : List Nat :=
  if channel_name ≠ "" then
    cp.sha256 (base_key ++ utf8Bytes channel_name)
  else
    base_key

/-- Embedding of the key-selection step of the trial loop
(mqtt_filter.py lines 250-257): derive only when the channel name is
non-empty and is not the reserved primary-channel name LongFast,
otherwise use the base key directly.  This composite is the derivation
rule the specification calls `derive`. -/
def selectKey (cp : CryptoPrims) (base_key : List Nat) (channel_name : String) : List Nat :=
  if channel_name ≠ "" ∧ channel_name ∉ (["LongFast", ""] : List String) then
    deriveKey cp base_key channel_name
  else
    base_key

/-- Little-endian byte decomposition of a natural number into a fixed
number of bytes, modelling Python int.to_bytes with the little byteorder
(defined for all inputs; the engine guards the arguments by the same
bound under which the Python call does not raise). -/
def toBytesLE : Nat → Nat → List Nat
  | 0, _ => []
  | k + 1, n => n % 256 :: toBytesLE k (n / 256)

/-- The 16-byte AES-CTR nonce of `_decrypt_packet` (mqtt_filter.py lines
259-263): packet id as 8 little-endian bytes followed by the sender
address as 8 little-endian bytes. -/
def nonceBytes (packet_id from_id : Nat) : List Nat :=
  toBytesLE 8 packet_id ++ toBytesLE 8 from_id

/-- Counter-mode application of a keystream: XOR every data byte with the
keystream byte at its position (starting at position `i`).  Encryption and
decryption are this same operation, which is how the cryptography library
call of `_decrypt_packet` is modelled. -/
def ctrApply (stream : Nat → Nat) : Nat → List Nat → List Nat
  | _, [] => []
  | i, b :: rest => (b ^^^ stream i % 256) :: ctrApply stream (i + 1) rest

/-- Protobuf base-128 varint encoding (little-endian groups of 7 bits,
continuation bit on every byte but the last), written with explicit fuel
so that it is structurally recursive; `n + 1` is always enough fuel. -/
def encodeVarintAux : Nat → Nat → List Nat
  | 0, _ => []
  | fuel + 1, n =>
      if n < 128 then [n]
      else (n % 128 + 128) :: encodeVarintAux fuel (n / 128)

/-- Protobuf varint encoding of a natural number. -/
def encodeVarint (n : Nat) : List Nat :=
  encodeVarintAux (n + 1) n

/-- Protobuf varint decoding: the decoded value and the remaining bytes,
or `none` if the input ends inside a varint. -/
def decodeVarint : List Nat → Option (Nat × List Nat)
  | [] => none
  | b :: rest =>
      if b < 128 then some (b, rest)
      else
        match decodeVarint rest with
        | some (v, r) => some (v * 128 + b % 128, r)
        | none => none

/-- One pass of the protobuf wire parser for the `Data` message, with fuel
(one unit per field; every field consumes at least one byte, so an initial
fuel of the input length plus one is always enough).  Field 1 (varint) is
`portnum`, field 2 (length-delimited) is `payload`, field 9 (varint) is the
optional `bitfield`; other fields of the real message (all varint or
fixed-width in the Meshtastic schema) and unknown fields are skipped, as
the real parser does.  Wire types 3, 4, 6 and 7 and field number 0 are
rejected, as the real parser does. -/
def parseFields : Nat → Data → List Nat → Option Data
  | 0, _, _ => none
  | _ + 1, acc, [] => some acc
  | fuel + 1, acc, b :: bs =>
      match decodeVarint (b :: bs) with
      | none => none
      | some (tag, rest) =>
          if tag / 8 = 0 then none
          else if tag % 8 = 0 then
            match decodeVarint rest with
            | none => none
            | some (v, r2) =>
                if tag / 8 = 1 then parseFields fuel { acc with portnum := v } r2
                else if tag / 8 = 9 then parseFields fuel { acc with bitfield := some v } r2
                else parseFields fuel acc r2
          else if tag % 8 = 2 then
            match decodeVarint rest with
            | none => none
            | some (len, r2) =>
                if len ≤ r2.length then
                  if tag / 8 = 2 then parseFields fuel { acc with payload := r2.take len } (r2.drop len)
                  else parseFields fuel acc (r2.drop len)
                else none
          else if tag % 8 = 5 then
            if 4 ≤ rest.length then parseFields fuel acc (rest.drop 4) else none
          else if tag % 8 = 1 then
            if 8 ≤ rest.length then parseFields fuel acc (rest.drop 8) else none
          else none

/-- Embedding of `Data.ParseFromString`: parse the whole byte sequence as a
`Data` message (returns `none` exactly where the real parser raises, which
the trial loop catches). -/
def parseData (bs : List Nat) : Option Data :=
  parseFields (bs.length + 1) dataDefault bs

/-- Embedding of `Data.SerializeToString` for the modelled fields, in field
number order as the protobuf library emits them: proto3 scalar fields are
omitted at their default value, the explicit-presence `bitfield` is
emitted whenever set.  Tag bytes: field 1 wire 0 is 8, field 2 wire 2 is
18, field 9 wire 0 is 72. -/
def serializeData (d : Data) : List Nat :=
  (if d.portnum = 0 then [] else 8 :: encodeVarint d.portnum)
    ++ (if d.payload = [] then [] else 18 :: (encodeVarint d.payload.length ++ d.payload))
    ++ (match d.bitfield with
        | none => []
        | some b => 72 :: encodeVarint b)

/-- Valid AES key sizes of the cryptography library (bytes); a key of any
other length makes the AES constructor raise, which the trial loop catches
and treats as a failure of that key. -/
def validAesKeyLength (key : List Nat) : Prop :=
  key.length = 16 ∨ key.length = 24 ∨ key.length = 32

instance (key : List Nat) : Decidable (validAesKeyLength key) := by
  unfold validAesKeyLength; infer_instance

/-- One iteration of the trial loop of `_decrypt_packet` (mqtt_filter.py
lines 246-305) for a single base key: select the effective key, build the
nonce, run counter mode over the ciphertext, parse the candidate plaintext
as `Data`, and reject a parse whose portnum is the invalid sentinel 0.
Every Python exception path of the iteration (oversized id or sender for
int.to_bytes, invalid AES key size, parse failure, the explicit ValueError
on portnum 0) yields `none`, on which the loop tries the next key. -/
def tryKeyDecrypt (cp : CryptoPrims) (channel_name : String) (pkt : MeshPacket)
    (base_key : List Nat) : Option Data :=
  if pkt.id < 2 ^ 64 ∧ pkt.fromId < 2 ^ 64 then
    let key := selectKey cp base_key channel_name
    if validAesKeyLength key then
      let plain := ctrApply (cp.aesCtrStream key (nonceBytes pkt.id pkt.fromId)) 0
        (pkt.encrypted.getD [])
      match parseData plain with
      | none => none
      | some d => if d.portnum = 0 then none else some d
    else none
  else none

/-- The trial loop over the key ring, in ring order, stopping at the first
key whose iteration succeeds. -/
def decryptLoop (cp : CryptoPrims) (channel_name : String) (pkt : MeshPacket) :
    List (String × List Nat) → Option Data
  | [] => none
  | e :: rest =>
      match tryKeyDecrypt cp channel_name pkt e.2 with
      | some d => some d
      | none => decryptLoop cp channel_name pkt rest

/-- Embedding of `_decrypt_packet` (mqtt_filter.py lines 225-310): guard on
a present, non-empty ciphertext (returning with no state change
otherwise); then the trial loop; on success the packet moves to the
decoded state (decoded set, encrypted cleared) and `decrypted` is
incremented; on exhaustion the packet is unchanged and `decryption_failed`
is incremented.  Returns the packet, the statistics and the boolean result
of the Python function. -/
def decryptPacket (cp : CryptoPrims) (keys : List (String × List Nat)) (pkt : MeshPacket)
    (channel_name : String) (stats : Stats) : MeshPacket × Stats × Bool :=
  if pkt.encrypted.isNone ∨ pkt.encrypted.getD [] = [] then
    (pkt, stats, false)
  else
    match decryptLoop cp channel_name pkt keys with
    | some d =>
        ({ pkt with decoded := some d, encrypted := none },
         { stats with decrypted := stats.decrypted + 1 }, true)
    | none =>
        (pkt, { stats with decryption_failed := stats.decryption_failed + 1 }, false)

/-- Python str.rstrip with a set of characters: remove every trailing
character that is a member of the set. -/
def rstripChars (s : String) (cs : List Char) : String :=
  ⟨((s.data.reverse.dropWhile (· ∈ cs)).reverse)⟩

/-- Python str.replace with count 1 on character lists: replace the first
(leftmost) occurrence of `old` with `new`, scanning left to right; if
`old` does not occur, return the list unchanged.  An empty `old` matches
at position 0, as in Python. -/
def replaceFirstAux (old new : List Char) : List Char → List Char
  | [] => if old.isPrefixOf [] then new else []
  | c :: rest =>
      if old.isPrefixOf (c :: rest) then new ++ (c :: rest).drop old.length
      else c :: replaceFirstAux old new rest

/-- Python str.replace(old, new, 1) on strings. -/
def pyReplaceFirst (s old new : String) : String :=
  ⟨replaceFirstAux old.data new.data s.data⟩

/-- The topic rewrite of `on_message` (mqtt_filter.py line 157): replace the
first occurrence of the wildcard-stripped input topic with the
wildcard-stripped output topic. -/
def rewriteTopic (topic input_topic output_topic : String) : String :=
  pyReplaceFirst topic (rstripChars input_topic ['/', '#']) (rstripChars output_topic ['/', '#'])

/-- Decidable substring occurrence: whether `old` occurs contiguously
somewhere in the list. -/
def containsSeq (old : List Char) : List Char → Bool
  | [] => old.isPrefixOf []
  | c :: rest => old.isPrefixOf (c :: rest) || containsSeq old rest

/-- The decryption step of `on_message` (mqtt_filter.py lines 133-145):
`_decrypt_packet` is invoked only when the packet has no decoded field,
has an encrypted field, and the key ring is non-empty; with an empty ring
the source only logs and skips the call entirely (so no counter changes).
The channel name passed down is the envelope channel_id (the source guard
`channel_id if channel_id else ""` is the identity on strings). -/
def preDecrypt (cp : CryptoPrims) (cfg : FilterConfig) (stats : Stats)
    (env : ServiceEnvelope) : MeshPacket × Stats :=
  let pkt := env.packet
  if pkt.decoded.isNone ∧ pkt.encrypted.isSome then
    if cfg.keys ≠ [] then
      let r := decryptPacket cp cfg.keys pkt env.channel_id stats
      (r.1, r.2.1)
    else (pkt, stats)
  else (pkt, stats)

/-- The admission-and-publish step of `on_message` (mqtt_filter.py lines
150-160): run `_check_ok_to_mqtt`; on a forwarding verdict increment
`forwarded` and publish under the rewritten topic.  The returned option is
the published topic (`none` means nothing was published). -/
def admission (stats : Stats) (pkt : MeshPacket) (topic : String) (cfg : FilterConfig) :
    Stats × Option String :=
  let res := checkOkToMqtt stats pkt
  if res.2 then
    ({ res.1 with forwarded := res.1.forwarded + 1 },
     some (rewriteTopic topic cfg.input_topic cfg.output_topic))
  else (res.1, none)

/-- Embedding of the message handler `on_message` (mqtt_filter.py lines
103-174).  The whole body runs in a try/except that logs and swallows any
exception; the modelled exception sources, both occurring after the
`total` increment, are:

* envelope deserialization (`payload = none`): ParseFromString raises at
  line 111, so a malformed message bumps `total` and nothing else;
* the debug formatting at line 129: the f-string
  bitfield=0x followed by the replacement field
  packet.decoded.bitfield with format spec text
  02x if packet.decoded.HasField(...) else 0
  passes that literal text as a format specifier to int formatting,
  which raises ValueError.  Since f-strings are evaluated eagerly
  regardless of log level, every message whose packet arrives with a
  decoded field raises there and is swallowed, again bumping `total`
  only.

A packet arriving without a decoded field takes the harmless else branch
at line 131 (and line 129 is not re-evaluated after decryption), so only
such envelopes reach the decryption step and then the
admission-and-publish step. -/
def onMessage (cp : CryptoPrims) (cfg : FilterConfig) (stats : Stats) (m : MqttMsg) :
    Stats × Option String :=
  let stats := { stats with total := stats.total + 1 }
  match m.payload with
  | none => (stats, none)
  | some env =>
      if env.packet.decoded.isSome then
        (stats, none)
      else
        let step := preDecrypt cp cfg stats env
        admission step.2 step.1 m.topic cfg

/-- A delivered message that deserializes as a ServiceEnvelope whose
packet arrives without a decoded field: exactly the messages that survive
both swallowed exceptions of `onMessage` and reach the admission
decision. -/
def parsesUndecoded (m : MqttMsg) : Bool :=
  match m.payload with
  | none => false
  | some env => env.packet.decoded.isNone

/-- Processing of a sequence of delivered messages, threading the
statistics through `onMessage`. -/
def processAll (cp : CryptoPrims) (cfg : FilterConfig) (stats : Stats) :
    List MqttMsg → Stats
  | [] => stats
  | m :: rest => processAll cp cfg (onMessage cp cfg stats m).1 rest

/-- Sum of the per-message outcome counters that exist in the source
statistics dictionary (the code maintains no forwarded_exempt counter, so
the sum ranges over the four counters the admission decision touches). -/
def outcomeSum (s : Stats) : Nat :=
  s.forwarded + s.rejected_encrypted + s.rejected_no_bitfield + s.rejected_bitfield_disabled

/-- Modelled from the spec: the encryption direction of the round-trip
property (spec section 8).  The repository contains only the decryption
direction; encryption is counter mode over the serialized Data with the
same keystream and the same id/from-derived nonce the decryption engine
reconstructs. -/
def encryptData (cp : CryptoPrims) (key : List Nat) (packet_id from_id : Nat) (d : Data) :
    List Nat :=
  ctrApply (cp.aesCtrStream key (nonceBytes packet_id from_id)) 0 (serializeData d)

/-- Concrete primitives used by the executable example witnesses: a digest
returning a fixed 32-byte value and a keystream mixing key, nonce and
position (any instance works; the theorems are parametric). -/
def cpW : CryptoPrims :=
  ⟨fun _ => List.replicate 32 0, fun k n i => (k.headD 0 + n.headD 0 + i) * 37⟩

/-- A 16-byte example key (a valid AES-128 key size). -/
def keyW : List Nat :=
  List.replicate 16 3

/-- An example Data value with nonzero portnum, payload and bitfield. -/
def dW : Data :=
  ⟨1, [72, 105], some 1⟩

/-- An example packet carrying the encryption of `dW` under `keyW`. -/
def pktW : MeshPacket :=
  ⟨123456, 305419896, 0, 0, none, some (encryptData cpW keyW 123456 305419896 dW)⟩

/-- An example envelope whose packet is decoded with the admission bit set. -/
def envW : ServiceEnvelope :=
  ⟨"LongFast", "!gw", ⟨1, 2, 3, 0, some ⟨1, [], some 1⟩, none⟩⟩

/-- An example envelope whose packet is still encrypted (non-empty
ciphertext, no decoded field). -/
def envE : ServiceEnvelope :=
  ⟨"LongFast", "!gw", ⟨1, 2, 3, 0, none, some [1, 2, 3]⟩⟩

/-!  Helper lemmas. -/

/-- Boolean prefix test on character lists, characterized by list append. -/
theorem isPrefixOf_iff_exists (a : List Char) : ∀ b : List Char,
    a.isPrefixOf b = true ↔ ∃ t, a ++ t = b := by
  induction a with
  | nil => intro b; simp [List.isPrefixOf]
  | cons c a ih =>
      intro b
      cases b with
      | nil => simp [List.isPrefixOf]
      | cons d b =>
          simp only [List.isPrefixOf, Bool.and_eq_true, beq_iff_eq, ih, List.cons_append,
            List.cons.injEq]
          constructor
          · rintro ⟨h1, t, h2⟩
            exact ⟨t, h1, h2⟩
          · rintro ⟨t, h1, h2⟩
            exact ⟨h1, t, h2⟩

/-- Replacement at a match: when old is a prefix, the head occurrence is
replaced and the tail beyond it kept. -/
theorem replaceFirstAux_pos (old new s : List Char) (h : old.isPrefixOf s = true) :
    replaceFirstAux old new s = new ++ s.drop old.length := by
  cases s with
  | nil =>
      have : old = [] := by
        rcases (isPrefixOf_iff_exists old []).1 h with ⟨t, ht⟩
        exact List.append_eq_nil.mp ht |>.1
      subst this
      simp [replaceFirstAux]
  | cons c rest => simp [replaceFirstAux, h]

/-- Replacement scan step: no match at the head keeps the head character. -/
theorem replaceFirstAux_neg_cons (old new : List Char) (c : Char) (rest : List Char)
    (h : old.isPrefixOf (c :: rest) = false) :
    replaceFirstAux old new (c :: rest) = c :: replaceFirstAux old new rest := by
  simp [replaceFirstAux, h]

/-- A list containing no occurrence of old is left unchanged by the
replacement. -/
theorem replaceFirstAux_not_contains (old new : List Char) : ∀ s : List Char,
    containsSeq old s = false → replaceFirstAux old new s = s := by
  intro s
  induction s with
  | nil =>
      intro h
      simp only [containsSeq] at h
      simp [replaceFirstAux, h]
  | cons c rest ih =>
      intro h
      simp only [containsSeq, Bool.or_eq_false_iff] at h
      rw [replaceFirstAux_neg_cons old new c rest h.1, ih h.2]

/-- The replacement rewrites exactly the leftmost occurrence, preserving
everything before and after it. -/
theorem replaceFirstAux_first (old new : List Char) : ∀ (pre post s : List Char),
    s = pre ++ old ++ post →
    (∀ pre2 post2 : List Char, s = pre2 ++ old ++ post2 → pre.length ≤ pre2.length) →
    replaceFirstAux old new s = pre ++ new ++ post := by
  intro pre
  induction pre with
  | nil =>
      intro post s hs _
      subst hs
      have hp : old.isPrefixOf (([] : List Char) ++ old ++ post) = true := by
        rw [isPrefixOf_iff_exists]
        exact ⟨post, by simp⟩
      rw [replaceFirstAux_pos old new _ hp]
      simp [List.drop_left]
  | cons c pre ih =>
      intro post s hs hmin
      subst hs
      have hnp : old.isPrefixOf ((c :: pre) ++ old ++ post) = false := by
        by_contra hcon
        rw [Bool.not_eq_false, isPrefixOf_iff_exists] at hcon
        rcases hcon with ⟨t, ht⟩
        have := hmin [] t (by simpa using ht.symm)
        simp at this
      rw [show (c :: pre) ++ old ++ post = c :: (pre ++ old ++ post) by simp] at hnp ⊢
      rw [replaceFirstAux_neg_cons old new c _ hnp]
      rw [ih post (pre ++ old ++ post) rfl ?_]
      · simp
      · intro pre2 post2 h2
        have := hmin (c :: pre2) post2 (by simp [h2])
        simpa using this

/-- Decoding inverts encoding: with enough fuel for the encoder, the
varint decoder recovers the value and the untouched remainder. -/
theorem decodeVarint_encodeAux : ∀ (fuel n : Nat), n < fuel → ∀ rest : List Nat,
    decodeVarint (encodeVarintAux fuel n ++ rest) = some (n, rest) := by
  intro fuel
  induction fuel with
  | zero => intro n hn; omega
  | succ fuel ih =>
      intro n hn rest
      by_cases h : n < 128
      · simp [encodeVarintAux, h, decodeVarint]
      · have hpos : 0 < n := by omega
        have hlt : n / 128 < n := Nat.div_lt_self hpos (by norm_num)
        have hdiv : n / 128 < fuel := by omega
        rw [encodeVarintAux]
        rw [if_neg h]
        rw [List.cons_append]
        rw [decodeVarint]
        rw [if_neg (by omega : ¬ n % 128 + 128 < 128)]
        rw [ih (n / 128) hdiv rest]
        have hmod : (n % 128 + 128) % 128 = n % 128 := by omega
        have hval : n / 128 * 128 + n % 128 = n := by omega
        simp [hmod, hval]

/-- Decoding inverts encoding, stated for the fuel-free wrapper. -/
theorem decodeVarint_encode (n : Nat) (rest : List Nat) :
    decodeVarint (encodeVarint n ++ rest) = some (n, rest) :=
  decodeVarint_encodeAux (n + 1) n (by omega) rest

/-- The varint decoder consumes at least one byte. -/
theorem decodeVarint_length : ∀ (bs : List Nat) (v : Nat) (r : List Nat),
    decodeVarint bs = some (v, r) → r.length < bs.length := by
  intro bs
  induction bs with
  | nil => intro v r h; simp [decodeVarint] at h
  | cons b rest ih =>
      intro v r h
      rw [decodeVarint] at h
      by_cases hb : b < 128
      · rw [if_pos hb] at h
        injection h with h
        injection h with _ h2
        subst h2
        simp
      · rw [if_neg hb] at h
        rcases hm : decodeVarint rest with _ | ⟨v2, r2⟩
        · rw [hm] at h; exact absurd h (by simp)
        · rw [hm] at h
          injection h with h
          injection h with _ h2
          subst h2
          have := ih v2 r2 hm
          simp only [List.length_cons]
          omega

/-- Counter mode is an involution: applying the same keystream twice at the
same starting position restores the data. -/
theorem ctrApply_ctrApply (stream : Nat → Nat) : ∀ (i : Nat) (bs : List Nat),
    ctrApply stream i (ctrApply stream i bs) = bs := by
  intro i bs
  induction bs generalizing i with
  | nil => simp [ctrApply]
  | cons b rest ih =>
      rw [ctrApply, ctrApply]
      rw [Nat.xor_assoc, Nat.xor_self, Nat.xor_zero]
      rw [ih (i + 1)]

/-- Counter mode never changes the length, hence maps a non-empty input to
a non-empty output. -/
theorem ctrApply_eq_nil_iff (stream : Nat → Nat) (i : Nat) (bs : List Nat) :
    ctrApply stream i bs = [] ↔ bs = [] := by
  cases bs with
  | nil => simp [ctrApply]
  | cons b rest => simp [ctrApply]

/-- The serialized form of a Data value with a set portnum is non-empty. -/
theorem serializeData_ne_nil (d : Data) (h : d.portnum ≠ 0) : serializeData d ≠ [] := by
  rw [serializeData, if_neg h]
  simp

/-- Fuel irrelevance of the wire parser: any two fuel values exceeding the
input length give the same result, so the canonical fuel of `parseData`
can be replaced by any larger one. -/
theorem parseFields_agree : ∀ (n f g : Nat) (acc : Data) (bs : List Nat),
    bs.length ≤ n → bs.length < f → bs.length < g →
    parseFields f acc bs = parseFields g acc bs := by
  intro n
  induction n with
  | zero =>
      intro f g acc bs hn hf hg
      have hbs : bs = [] := List.length_eq_zero.mp (Nat.le_zero.mp hn)
      subst hbs
      obtain ⟨f, rfl⟩ : ∃ k, f = k + 1 := ⟨f - 1, by omega⟩
      obtain ⟨g, rfl⟩ : ∃ k, g = k + 1 := ⟨g - 1, by omega⟩
      rfl
  | succ n ih =>
      intro f g acc bs hn hf hg
      obtain ⟨f, rfl⟩ : ∃ k, f = k + 1 := ⟨f - 1, by omega⟩
      obtain ⟨g, rfl⟩ : ∃ k, g = k + 1 := ⟨g - 1, by omega⟩
      cases bs with
      | nil => rfl
      | cons b bs =>
          rcases hdv : decodeVarint (b :: bs) with _ | ⟨tag, rest⟩
          · simp only [parseFields, hdv]
          · have hrest := decodeVarint_length _ _ _ hdv
            simp only [parseFields, hdv]
            by_cases h0 : tag / 8 = 0
            · rw [if_pos h0, if_pos h0]
            · rw [if_neg h0, if_neg h0]
              by_cases hw0 : tag % 8 = 0
              · rw [if_pos hw0, if_pos hw0]
                rcases hdv2 : decodeVarint rest with _ | ⟨v, r2⟩
                · simp only [hdv2]
                · have hr2 := decodeVarint_length _ _ _ hdv2
                  simp only [hdv2]
                  have hb1 : r2.length ≤ n := by
                    simp only [List.length_cons] at hrest hn
                    omega
                  have hb2 : r2.length < f := by
                    simp only [List.length_cons] at hrest hf
                    omega
                  have hb3 : r2.length < g := by
                    simp only [List.length_cons] at hrest hg
                    omega
                  by_cases h1 : tag / 8 = 1
                  · rw [if_pos h1, if_pos h1]
                    exact ih f g _ r2 hb1 hb2 hb3
                  · rw [if_neg h1, if_neg h1]
                    by_cases h9 : tag / 8 = 9
                    · rw [if_pos h9, if_pos h9]
                      exact ih f g _ r2 hb1 hb2 hb3
                    · rw [if_neg h9, if_neg h9]
                      exact ih f g _ r2 hb1 hb2 hb3
              · rw [if_neg hw0, if_neg hw0]
                by_cases hw2 : tag % 8 = 2
                · rw [if_pos hw2, if_pos hw2]
                  rcases hdv2 : decodeVarint rest with _ | ⟨len, r2⟩
                  · simp only [hdv2]
                  · have hr2 := decodeVarint_length _ _ _ hdv2
                    simp only [hdv2]
                    by_cases hle : len ≤ r2.length
                    · rw [if_pos hle, if_pos hle]
                      have hdl : (r2.drop len).length ≤ r2.length := by
                        rw [List.length_drop]
                        omega
                      have hb1 : (r2.drop len).length ≤ n := by
                        simp only [List.length_cons] at hrest hn
                        omega
                      have hb2 : (r2.drop len).length < f := by
                        simp only [List.length_cons] at hrest hf
                        omega
                      have hb3 : (r2.drop len).length < g := by
                        simp only [List.length_cons] at hrest hg
                        omega
                      by_cases h2 : tag / 8 = 2
                      · rw [if_pos h2, if_pos h2]
                        exact ih f g _ _ hb1 hb2 hb3
                      · rw [if_neg h2, if_neg h2]
                        exact ih f g _ _ hb1 hb2 hb3
                    · rw [if_neg hle, if_neg hle]
                · rw [if_neg hw2, if_neg hw2]
                  by_cases hw5 : tag % 8 = 5
                  · rw [if_pos hw5, if_pos hw5]
                    by_cases hle : 4 ≤ rest.length
                    · rw [if_pos hle, if_pos hle]
                      have hdl : (rest.drop 4).length ≤ rest.length := by
                        rw [List.length_drop]
                        omega
                      refine ih f g _ _ ?_ ?_ ?_ <;>
                        · simp only [List.length_cons] at hrest hn hf hg
                          omega
                    · rw [if_neg hle, if_neg hle]
                  · rw [if_neg hw5, if_neg hw5]
                    by_cases hw1 : tag % 8 = 1
                    · rw [if_pos hw1, if_pos hw1]
                      by_cases hle : 8 ≤ rest.length
                      · rw [if_pos hle, if_pos hle]
                        have hdl : (rest.drop 8).length ≤ rest.length := by
                          rw [List.length_drop]
                          omega
                        refine ih f g _ _ ?_ ?_ ?_ <;>
                          · simp only [List.length_cons] at hrest hn hf hg
                            omega
                      · rw [if_neg hle, if_neg hle]
                    · rw [if_neg hw1, if_neg hw1]

/-- Parsing step for an encoded portnum field (tag byte 8, then the varint
value). -/
theorem parseFields_step_portnum (f : Nat) (acc : Data) (v : Nat) (rest : List Nat) :
    parseFields (f + 1) acc (8 :: (encodeVarint v ++ rest))
      = parseFields f { acc with portnum := v } rest := by
  have hd : decodeVarint (8 :: (encodeVarint v ++ rest)) = some (8, encodeVarint v ++ rest) := by
    rw [decodeVarint]
    norm_num
  simp only [parseFields, hd, decodeVarint_encode]
  norm_num

/-- Parsing step for an encoded payload field (tag byte 18, the varint
length, then the payload bytes). -/
theorem parseFields_step_payload (f : Nat) (acc : Data) (pl rest : List Nat) :
    parseFields (f + 1) acc (18 :: (encodeVarint pl.length ++ (pl ++ rest)))
      = parseFields f { acc with payload := pl } rest := by
  have hd : decodeVarint (18 :: (encodeVarint pl.length ++ (pl ++ rest)))
      = some (18, encodeVarint pl.length ++ (pl ++ rest)) := by
    rw [decodeVarint]
    norm_num
  simp only [parseFields, hd, decodeVarint_encode]
  norm_num

/-- Parsing step for an encoded bitfield field (tag byte 72, then the
varint value). -/
theorem parseFields_step_bitfield (f : Nat) (acc : Data) (b : Nat) (rest : List Nat) :
    parseFields (f + 1) acc (72 :: (encodeVarint b ++ rest))
      = parseFields f { acc with bitfield := some b } rest := by
  have hd : decodeVarint (72 :: (encodeVarint b ++ rest)) = some (72, encodeVarint b ++ rest) := by
    rw [decodeVarint]
    norm_num
  simp only [parseFields, hd, decodeVarint_encode]
  norm_num

/-- Parsing step for a trailing portnum field. -/
theorem parseFields_last_portnum (f : Nat) (acc : Data) (v : Nat) :
    parseFields (f + 1) acc (8 :: encodeVarint v) = parseFields f { acc with portnum := v } [] := by
  have h := parseFields_step_portnum f acc v []
  rwa [List.append_nil] at h

/-- Parsing step for a trailing payload field. -/
theorem parseFields_last_payload (f : Nat) (acc : Data) (pl : List Nat) :
    parseFields (f + 1) acc (18 :: (encodeVarint pl.length ++ pl))
      = parseFields f { acc with payload := pl } [] := by
  have h := parseFields_step_payload f acc pl []
  rwa [List.append_nil] at h

/-- Parsing step for a trailing bitfield field. -/
theorem parseFields_last_bitfield (f : Nat) (acc : Data) (b : Nat) :
    parseFields (f + 1) acc (72 :: encodeVarint b)
      = parseFields f { acc with bitfield := some b } [] := by
  have h := parseFields_step_bitfield f acc b []
  rwa [List.append_nil] at h

/-- Exhausted input yields the accumulator. -/
theorem parseFields_done (f : Nat) (acc : Data) : parseFields (f + 1) acc [] = some acc :=
  rfl

/-- Parsing a serialized Data value with generous fuel recovers the value,
whatever combination of fields is present. -/
theorem parseFields_serialize (pn : Nat) (pl : List Nat) (bf : Option Nat) (f : Nat) :
    parseFields (f + 4) dataDefault (serializeData ⟨pn, pl, bf⟩) = some ⟨pn, pl, bf⟩ := by
  by_cases hpn : pn = 0
  · by_cases hpl : pl = []
    · rcases bf with _ | b
      · subst hpn
        subst hpl
        have hser : serializeData ⟨0, [], none⟩ = [] := by simp [serializeData]
        rw [hser]
        exact parseFields_done (f + 3) dataDefault
      · subst hpn
        subst hpl
        have hser : serializeData ⟨0, [], some b⟩ = 72 :: encodeVarint b := by
          simp [serializeData]
        rw [hser]
        exact (parseFields_last_bitfield (f + 3) dataDefault b).trans
          (parseFields_done (f + 2) ⟨0, [], some b⟩)
    · rcases bf with _ | b
      · subst hpn
        have hser : serializeData ⟨0, pl, none⟩ = 18 :: (encodeVarint pl.length ++ pl) := by
          simp [serializeData, hpl]
        rw [hser]
        exact (parseFields_last_payload (f + 3) dataDefault pl).trans
          (parseFields_done (f + 2) ⟨0, pl, none⟩)
      · subst hpn
        have hser : serializeData ⟨0, pl, some b⟩
            = 18 :: (encodeVarint pl.length ++ (pl ++ (72 :: encodeVarint b))) := by
          simp [serializeData, hpl]
        rw [hser]
        exact (parseFields_step_payload (f + 3) dataDefault pl (72 :: encodeVarint b)).trans
          ((parseFields_last_bitfield (f + 2) ⟨0, pl, none⟩ b).trans
            (parseFields_done (f + 1) ⟨0, pl, some b⟩))
  · by_cases hpl : pl = []
    · rcases bf with _ | b
      · subst hpl
        have hser : serializeData ⟨pn, [], none⟩ = 8 :: encodeVarint pn := by
          simp [serializeData, hpn]
        rw [hser]
        exact (parseFields_last_portnum (f + 3) dataDefault pn).trans
          (parseFields_done (f + 2) ⟨pn, [], none⟩)
      · subst hpl
        have hser : serializeData ⟨pn, [], some b⟩
            = 8 :: (encodeVarint pn ++ (72 :: encodeVarint b)) := by
          simp [serializeData, hpn]
        rw [hser]
        exact (parseFields_step_portnum (f + 3) dataDefault pn (72 :: encodeVarint b)).trans
          ((parseFields_last_bitfield (f + 2) ⟨pn, [], none⟩ b).trans
            (parseFields_done (f + 1) ⟨pn, [], some b⟩))
    · rcases bf with _ | b
      · have hser : serializeData ⟨pn, pl, none⟩
            = 8 :: (encodeVarint pn ++ (18 :: (encodeVarint pl.length ++ pl))) := by
          simp [serializeData, hpn, hpl]
        rw [hser]
        exact (parseFields_step_portnum (f + 3) dataDefault pn
            (18 :: (encodeVarint pl.length ++ pl))).trans
          ((parseFields_last_payload (f + 2) ⟨pn, [], none⟩ pl).trans
            (parseFields_done (f + 1) ⟨pn, pl, none⟩))
      · have hser : serializeData ⟨pn, pl, some b⟩
            = 8 :: (encodeVarint pn
              ++ (18 :: (encodeVarint pl.length ++ (pl ++ (72 :: encodeVarint b))))) := by
          simp [serializeData, hpn, hpl]
        rw [hser]
        exact (parseFields_step_portnum (f + 3) dataDefault pn
            (18 :: (encodeVarint pl.length ++ (pl ++ (72 :: encodeVarint b))))).trans
          ((parseFields_step_payload (f + 2) ⟨pn, [], none⟩ pl (72 :: encodeVarint b)).trans
            ((parseFields_last_bitfield (f + 1) ⟨pn, pl, none⟩ b).trans
              (parseFields_done f ⟨pn, pl, some b⟩)))

/-- Wire round-trip: parsing the serialization of any Data value recovers
the value exactly. -/
theorem parseData_serializeData (d : Data) : parseData (serializeData d) = some d := by
  obtain ⟨pn, pl, bf⟩ := d
  rw [parseData]
  rw [parseFields_agree (serializeData ⟨pn, pl, bf⟩).length
    ((serializeData ⟨pn, pl, bf⟩).length + 1) ((serializeData ⟨pn, pl, bf⟩).length + 4)
    dataDefault _ le_rfl (by omega) (by omega)]
  exact parseFields_serialize pn pl bf _

/-- A ring in which every key fails leaves the trial loop without a
result. -/
theorem decryptLoop_all_none (cp : CryptoPrims) (channel_name : String) (pkt : MeshPacket) :
    ∀ keys : List (String × List Nat),
    (∀ e ∈ keys, tryKeyDecrypt cp channel_name pkt e.2 = none) →
    decryptLoop cp channel_name pkt keys = none := by
  intro keys
  induction keys with
  | nil => intro _; rfl
  | cons e rest ih =>
      intro hall
      rw [decryptLoop, hall e (by simp), ih (fun x hx => hall x (by simp [hx]))]

/-- The trial loop returns the result of the first key in ring order whose
iteration succeeds, regardless of the keys after it. -/
theorem decryptLoop_first_some (cp : CryptoPrims) (channel_name : String) (pkt : MeshPacket) :
    ∀ (pre : List (String × List Nat)) (k : String × List Nat)
      (post : List (String × List Nat)) (d : Data),
    (∀ e ∈ pre, tryKeyDecrypt cp channel_name pkt e.2 = none) →
    tryKeyDecrypt cp channel_name pkt k.2 = some d →
    decryptLoop cp channel_name pkt (pre ++ k :: post) = some d := by
  intro pre
  induction pre with
  | nil =>
      intro k post d _ hk
      rw [List.nil_append, decryptLoop, hk]
  | cons e pre ih =>
      intro k post d hall hk
      rw [List.cons_append, decryptLoop, hall e (by simp)]
      exact ih k post d (fun x hx => hall x (by simp [hx])) hk

/-- The decryption engine changes no admission counter: only `decrypted`
or `decryption_failed` can move. -/
theorem decryptPacket_counters (cp : CryptoPrims) (keys : List (String × List Nat))
    (pkt : MeshPacket) (channel_name : String) (stats : Stats) :
    ((decryptPacket cp keys pkt channel_name stats).2.1).total = stats.total
    ∧ outcomeSum ((decryptPacket cp keys pkt channel_name stats).2.1) = outcomeSum stats := by
  rw [decryptPacket]
  split
  · exact ⟨rfl, rfl⟩
  · rcases decryptLoop cp channel_name pkt keys with _ | d
    · exact ⟨rfl, rfl⟩
    · exact ⟨rfl, rfl⟩

/-- The admission check either forwards with untouched statistics or
rejects, incrementing exactly one rejection counter. -/
theorem checkOkToMqtt_counters (stats : Stats) (pkt : MeshPacket) :
    ((checkOkToMqtt stats pkt).2 = true ∧ (checkOkToMqtt stats pkt).1 = stats)
    ∨ ((checkOkToMqtt stats pkt).2 = false
        ∧ (checkOkToMqtt stats pkt).1.total = stats.total
        ∧ outcomeSum (checkOkToMqtt stats pkt).1 = outcomeSum stats + 1) := by
  rcases hdec : pkt.decoded with _ | d
  · right
    refine ⟨?_, ?_, ?_⟩ <;> simp [checkOkToMqtt, hdec, outcomeSum] <;> omega
  · rcases hbf : d.bitfield with _ | b
    · right
      refine ⟨?_, ?_, ?_⟩ <;> simp [checkOkToMqtt, hdec, hbf, outcomeSum] <;> omega
    · by_cases hb : b &&& 0x01 ≠ 0
      · left
        rw [Nat.and_one_is_mod] at hb
        have hb1 : b % 2 = 1 := by omega
        refine ⟨?_, ?_⟩ <;> simp [checkOkToMqtt, hdec, hbf, hb1]
      · right
        rw [Nat.and_one_is_mod] at hb
        have hb1 : ¬ b % 2 = 1 := by omega
        refine ⟨?_, ?_, ?_⟩ <;> simp [checkOkToMqtt, hdec, hbf, hb1, outcomeSum] <;> omega

/-- The admission-and-publish step increments exactly one outcome counter
and leaves `total` alone. -/
theorem admission_counters (stats : Stats) (pkt : MeshPacket) (topic : String)
    (cfg : FilterConfig) :
    (admission stats pkt topic cfg).1.total = stats.total
    ∧ outcomeSum (admission stats pkt topic cfg).1 = outcomeSum stats + 1 := by
  rw [admission]
  rcases checkOkToMqtt_counters stats pkt with ⟨hb, hs⟩ | ⟨hb, ht, hs⟩
  · rw [hb]
    simp only [if_true]
    constructor
    · simp [hs]
    · simp [outcomeSum, hs]
      omega
  · rw [hb]
    simp only [if_false]
    exact ⟨ht, hs⟩

/-- The decryption step never changes `total` or the outcome counters. -/
theorem preDecrypt_counters (cp : CryptoPrims) (cfg : FilterConfig) (stats : Stats)
    (env : ServiceEnvelope) :
    (preDecrypt cp cfg stats env).2.total = stats.total
    ∧ outcomeSum (preDecrypt cp cfg stats env).2 = outcomeSum stats := by
  rw [preDecrypt]
  split
  · split
    · exact decryptPacket_counters cp cfg.keys env.packet env.channel_id stats
    · exact ⟨rfl, rfl⟩
  · exact ⟨rfl, rfl⟩

/-- A message whose payload parses as an envelope arriving without
decoded data (hence escaping both swallowed exceptions) increments
`total` by one and exactly one outcome counter. -/
theorem onMessage_step (cp : CryptoPrims) (cfg : FilterConfig) (stats : Stats) (m : MqttMsg)
    (h : parsesUndecoded m = true) :
    (onMessage cp cfg stats m).1.total = stats.total + 1
    ∧ outcomeSum (onMessage cp cfg stats m).1 = outcomeSum stats + 1 := by
  rcases hm : m.payload with _ | env
  · simp [parsesUndecoded, hm] at h
  · have hnone : env.packet.decoded = none := by
      simp only [parsesUndecoded, hm, Option.isNone_iff_eq_none] at h
      exact h
    simp only [onMessage, hm]
    rw [if_neg (by simp [hnone])]
    have h1 := preDecrypt_counters cp cfg { stats with total := stats.total + 1 } env
    have h2 := admission_counters (preDecrypt cp cfg { stats with total := stats.total + 1 } env).2
      (preDecrypt cp cfg { stats with total := stats.total + 1 } env).1 m.topic cfg
    constructor
    · rw [h2.1, h1.1]
    · rw [h2.2, h1.2]
      have : outcomeSum { stats with total := stats.total + 1 } = outcomeSum stats := rfl
      rw [this]

/-- Over a sequence of undecoded-arriving parsing messages, `total` and
the outcome sum both advance by the length of the sequence. -/
theorem processAll_counters (cp : CryptoPrims) (cfg : FilterConfig) :
    ∀ (msgs : List MqttMsg) (stats : Stats),
    (∀ m ∈ msgs, parsesUndecoded m = true) →
    (processAll cp cfg stats msgs).total = stats.total + msgs.length
    ∧ outcomeSum (processAll cp cfg stats msgs) = outcomeSum stats + msgs.length := by
  intro msgs
  induction msgs with
  | nil => intro stats _; simp [processAll]
  | cons m rest ih =>
      intro stats hall
      rw [processAll]
      have h1 := onMessage_step cp cfg stats m (hall m (by simp))
      have h2 := ih (onMessage cp cfg stats m).1 (fun x hx => hall x (by simp [hx]))
      constructor
      · rw [h2.1, h1.1]
        simp only [List.length_cons]
        omega
      · rw [h2.2, h1.2]
        simp only [List.length_cons]
        omega

/-!  Claim theorems. -/

/-- C1: the claim states that a packet whose sender address is in the
ExemptNodeSet is always given a forwarding verdict (ForwardExempt), even
with a disabled bitfield.  The code has no exemption logic at all:
`_check_ok_to_mqtt` consults only the decoded field and the bitfield,
`__init__` builds no exempt set and its statistics dictionary has no
forwarded_exempt counter, although the repository test suite constructs
the filter with exempt_nodes and asserts on forwarded_exempt.  At the
test suite input — sender 0x12345678 declared exempt, decoded Data with
bitfield 0 — the code instead rejects the packet, incrementing
rejected_bitfield_disabled. -/
theorem c1_exempt_sender_rejected :
    checkOkToMqtt statsInit ⟨123456, 0x12345678, 0xFFFFFFFF, 0, some ⟨1, [], some 0⟩, none⟩
      = ({ statsInit with rejected_bitfield_disabled := 1 }, false) := by
  rfl

/-- C3: key derivation (the composite rule applied by the trial loop)
returns the base key unchanged for the empty channel name and for the
reserved name LongFast, and otherwise the digest of the base key followed
by the UTF-8 bytes of the channel name; whenever the digest output and the
base key are 32 bytes, so is the derived key.  Determinism across calls is
immediate: the embedding is a pure function of its arguments. -/
theorem c3_key_derivation (cp : CryptoPrims) (base_key : List Nat) :
    (∀ channel_name : String, channel_name = "" ∨ channel_name = "LongFast" →
      selectKey cp base_key channel_name = base_key)
    ∧ (∀ channel_name : String, channel_name ≠ "" → channel_name ≠ "LongFast" →
      selectKey cp base_key channel_name = cp.sha256 (base_key ++ utf8Bytes channel_name))
    ∧ ((∀ bs, (cp.sha256 bs).length = 32) → base_key.length = 32 →
      ∀ channel_name : String, (selectKey cp base_key channel_name).length = 32) := by
  refine ⟨?_, ?_, ?_⟩
  · rintro name (rfl | rfl)
    · simp [selectKey]
    · rw [selectKey, if_neg (by decide)]
  · intro name h1 h2
    rw [selectKey, if_pos ⟨h1, by simp [h1, h2]⟩, deriveKey, if_pos h1]
  · intro hsha hbase name
    rw [selectKey]
    split
    · rw [deriveKey]
      split
      · exact hsha _
      · exact hbase
    · exact hbase

/-- Witness for C3 at concrete inputs: LongFast keeps the key, a custom
channel hashes, and the derived key is 32 bytes. -/
theorem c3_witness :
    selectKey cpW keyW "LongFast" = keyW
    ∧ selectKey cpW (List.replicate 32 7) "Other"
      = cpW.sha256 (List.replicate 32 7 ++ utf8Bytes "Other")
    ∧ (selectKey cpW (List.replicate 32 7) "Other").length = 32 :=
  ⟨(c3_key_derivation cpW keyW).1 "LongFast" (Or.inr rfl),
   (c3_key_derivation cpW (List.replicate 32 7)).2.1 "Other" (by decide) (by decide),
   (c3_key_derivation cpW (List.replicate 32 7)).2.2 (fun bs => by simp [cpW]) (by simp) "Other"⟩

/-- C4: for a packet (the code has no exemption, so every sender is
non-exempt) the admission check evaluates in priority order: no decoded
Data yields the RejectEncrypted outcome; decoded Data without a bitfield
yields RejectNoBitfield (the code has no configuration to change this,
matching the default stance); with a bitfield, bit 0 set yields Forward
and bit 0 clear yields RejectBitfieldDisabled.  The verdict is encoded as
the boolean result together with the uniquely incremented counter. -/
theorem c4_admission_policy (stats : Stats) (pkt : MeshPacket) :
    (pkt.decoded = none →
      checkOkToMqtt stats pkt
        = ({ stats with rejected_encrypted := stats.rejected_encrypted + 1 }, false))
    ∧ (∀ d : Data, pkt.decoded = some d → d.bitfield = none →
      checkOkToMqtt stats pkt
        = ({ stats with rejected_no_bitfield := stats.rejected_no_bitfield + 1 }, false))
    ∧ (∀ (d : Data) (b : Nat), pkt.decoded = some d → d.bitfield = some b → b &&& 0x01 ≠ 0 →
      checkOkToMqtt stats pkt = (stats, true))
    ∧ (∀ (d : Data) (b : Nat), pkt.decoded = some d → d.bitfield = some b → b &&& 0x01 = 0 →
      checkOkToMqtt stats pkt
        = ({ stats with rejected_bitfield_disabled := stats.rejected_bitfield_disabled + 1 },
           false)) := by
  refine ⟨?_, ?_, ?_, ?_⟩
  · intro h
    simp [checkOkToMqtt, h]
  · intro d h1 h2
    simp [checkOkToMqtt, h1, h2]
  · intro d b h1 h2 h3
    rw [Nat.and_one_is_mod] at h3
    have hb : b % 2 = 1 := by omega
    simp [checkOkToMqtt, h1, h2, hb]
  · intro d b h1 h2 h3
    rw [Nat.and_one_is_mod] at h3
    have hb : ¬ b % 2 = 1 := by omega
    simp [checkOkToMqtt, h1, h2, hb]

/-- Witness for C4: one concrete packet per admission branch. -/
theorem c4_witness :
    checkOkToMqtt statsInit ⟨1, 2, 3, 0, none, some [1]⟩
      = ({ statsInit with rejected_encrypted := statsInit.rejected_encrypted + 1 }, false)
    ∧ checkOkToMqtt statsInit ⟨1, 2, 3, 0, some ⟨1, [], none⟩, none⟩
      = ({ statsInit with rejected_no_bitfield := statsInit.rejected_no_bitfield + 1 }, false)
    ∧ checkOkToMqtt statsInit ⟨1, 2, 3, 0, some ⟨1, [], some 1⟩, none⟩ = (statsInit, true)
    ∧ checkOkToMqtt statsInit ⟨1, 2, 3, 0, some ⟨1, [], some 2⟩, none⟩
      = ({ statsInit with
            rejected_bitfield_disabled := statsInit.rejected_bitfield_disabled + 1 }, false) :=
  ⟨(c4_admission_policy statsInit _).1 rfl,
   (c4_admission_policy statsInit _).2.1 ⟨1, [], none⟩ rfl rfl,
   (c4_admission_policy statsInit _).2.2.1 ⟨1, [], some 1⟩ 1 rfl rfl (by decide),
   (c4_admission_policy statsInit _).2.2.2 ⟨1, [], some 2⟩ 2 rfl rfl (by decide)⟩

/-- C5: in the trial loop, the first key in ring order whose decrypted
output parses as a Data with nonzero portnum sets the packet's decoded
field to that Data, clears the encrypted field, increments `decrypted` by
exactly one, and the result does not depend on the keys after it (they are
never consulted — the conclusion is invariant in `post`); a single failing
key is skipped in favour of the rest of the ring; and a candidate
plaintext that parses with portnum 0 is a wrong-key result, making that
iteration fail. -/
theorem c5_first_valid_key (cp : CryptoPrims) (channel_name : String) (pkt : MeshPacket)
    (stats : Stats) :
    (∀ (pre : List (String × List Nat)) (k : String × List Nat)
       (post : List (String × List Nat)) (d : Data),
      (∀ e ∈ pre, tryKeyDecrypt cp channel_name pkt e.2 = none) →
      tryKeyDecrypt cp channel_name pkt k.2 = some d →
      pkt.encrypted.getD [] ≠ [] →
      decryptPacket cp (pre ++ k :: post) pkt channel_name stats
        = ({ pkt with decoded := some d, encrypted := none },
           { stats with decrypted := stats.decrypted + 1 }, true))
    ∧ (∀ (e : String × List Nat) (rest : List (String × List Nat)),
      tryKeyDecrypt cp channel_name pkt e.2 = none →
      decryptLoop cp channel_name pkt (e :: rest) = decryptLoop cp channel_name pkt rest)
    ∧ (∀ (base_key : List Nat) (d0 : Data),
      parseData (ctrApply (cp.aesCtrStream (selectKey cp base_key channel_name)
          (nonceBytes pkt.id pkt.fromId)) 0 (pkt.encrypted.getD [])) = some d0 →
      d0.portnum = 0 →
      tryKeyDecrypt cp channel_name pkt base_key = none) := by
  refine ⟨?_, ?_, ?_⟩
  · intro pre k post d hall hk henc
    have hg : ¬ (pkt.encrypted.isNone ∨ pkt.encrypted.getD [] = []) := by
      rcases hpe : pkt.encrypted with _ | ct
      · rw [hpe] at henc
        simp at henc
      · rw [hpe] at henc
        simp only [Option.getD_some] at henc
        simp [henc]
    rw [decryptPacket, if_neg hg,
      decryptLoop_first_some cp channel_name pkt pre k post d hall hk]
  · intro e rest he
    rw [decryptLoop, he]
  · intro base_key d0 hparse h0
    simp only [tryKeyDecrypt]
    split
    · split
      · rw [hparse]
        simp [h0]
      · rfl
    · rfl

/-- Witness for C5: a concrete two-key ring where the first key succeeds
on the encryption of `dW` and the second key is never needed. -/
theorem c5_witness :
    decryptPacket cpW [("default", keyW), ("custom-0", [])] pktW "" statsInit
      = ({ pktW with decoded := some dW, encrypted := none },
         { statsInit with decrypted := statsInit.decrypted + 1 }, true) :=
  (c5_first_valid_key cpW "" pktW statsInit).1 [] ("default", keyW) [("custom-0", [])] dW
    (by simp) (by decide) (by decide)

/-- C6: a non-empty ring in which every key fails leaves the packet
exactly as it was (no field is touched) and increments `decryption_failed`
by exactly one, with `decrypted` and every other counter unchanged. -/
theorem c6_key_miss (cp : CryptoPrims) (channel_name : String) (pkt : MeshPacket)
    (keys : List (String × List Nat)) (stats : Stats) (ct : List Nat) :
    keys ≠ [] →
    (∀ e ∈ keys, tryKeyDecrypt cp channel_name pkt e.2 = none) →
    pkt.encrypted = some ct → ct ≠ [] →
    decryptPacket cp keys pkt channel_name stats
      = (pkt, { stats with decryption_failed := stats.decryption_failed + 1 }, false) := by
  intro _ hall henc hct
  have hg : ¬ (pkt.encrypted.isNone ∨ pkt.encrypted.getD [] = []) := by
    rw [henc]
    simp [hct]
  rw [decryptPacket, if_neg hg, decryptLoop_all_none cp channel_name pkt keys hall]

/-- Witness for C6: a concrete one-key ring that fails on a one-byte
ciphertext. -/
theorem c6_witness :
    decryptPacket cpW [("default", keyW)] ⟨1, 2, 0, 0, none, some [255]⟩ "" statsInit
      = (⟨1, 2, 0, 0, none, some [255]⟩,
         { statsInit with decryption_failed := statsInit.decryption_failed + 1 }, false) :=
  c6_key_miss cpW "" ⟨1, 2, 0, 0, none, some [255]⟩ [("default", keyW)] statsInit [255]
    (by decide) (by decide) rfl (by decide)

/-- C7: round-trip.  Counter-mode encrypting the serialization of a Data
value with nonzero portnum under a key and the 16-byte nonce built from
the packet id and sender address (8 little-endian bytes each), then
running the decryption engine on the resulting packet with a ring
containing that key, yields a packet whose decoded field is structurally
equal to the original Data, with the encrypted field cleared and
`decrypted` incremented. -/
theorem c7_roundtrip (cp : CryptoPrims) (name : String) (key : List Nat)
    (packet_id from_id : Nat) (d : Data) (stats : Stats) :
    d.portnum ≠ 0 → packet_id < 2 ^ 64 → from_id < 2 ^ 64 → validAesKeyLength key →
    decryptPacket cp [(name, key)]
      ⟨packet_id, from_id, 0, 0, none, some (encryptData cp key packet_id from_id d)⟩ "" stats
      = (⟨packet_id, from_id, 0, 0, some d, none⟩,
         { stats with decrypted := stats.decrypted + 1 }, true) := by
  intro hpn hid hfrom hkey
  have henc : encryptData cp key packet_id from_id d ≠ [] := by
    rw [encryptData, Ne, ctrApply_eq_nil_iff]
    exact serializeData_ne_nil d hpn
  have hsel : selectKey cp key "" = key := by simp [selectKey]
  have htry : tryKeyDecrypt cp ""
      ⟨packet_id, from_id, 0, 0, none, some (encryptData cp key packet_id from_id d)⟩ key
      = some d := by
    simp only [tryKeyDecrypt, hsel]
    rw [if_pos ⟨hid, hfrom⟩, if_pos hkey]
    simp only [Option.getD_some, encryptData]
    rw [ctrApply_ctrApply, parseData_serializeData]
    simp [hpn]
  have hg : ¬ ((⟨packet_id, from_id, 0, 0, none,
      some (encryptData cp key packet_id from_id d)⟩ : MeshPacket).encrypted.isNone
      ∨ (⟨packet_id, from_id, 0, 0, none,
          some (encryptData cp key packet_id from_id d)⟩ : MeshPacket).encrypted.getD [] = []) := by
    simp [henc]
  rw [decryptPacket, if_neg hg]
  simp only [decryptLoop, htry]

/-- Witness for C7: the round-trip at the concrete example values. -/
theorem c7_witness :
    decryptPacket cpW [("default", keyW)] pktW "" statsInit
      = (⟨123456, 305419896, 0, 0, some dW, none⟩,
         { statsInit with decrypted := statsInit.decrypted + 1 }, true) :=
  c7_roundtrip cpW "default" keyW 123456 305419896 dW statsInit
    (by decide) (by decide) (by decide) (by decide)

/-- C2 (amended): after processing any sequence of messages that all parse
as a ServiceEnvelope and all arrive with the packet in the undecoded
state, `total` equals the sum
forwarded + rejected_encrypted + rejected_no_bitfield +
rejected_bitfield_disabled (the code keeps no forwarded_exempt counter,
so the claimed sum is taken over the outcome counters that exist), and
each such message increments `total` exactly once and the outcome sum
exactly once.  Both restrictions are forced: a message whose payload
fails deserialization increments `total` and no outcome counter, and so
does a message whose packet arrives with decoded data, because the debug
formatting at mqtt_filter.py line 129 then raises ValueError (invalid
literal format specifier, evaluated eagerly) before any outcome counter
is reached (see the counterexample for both). -/
theorem c2_counter_conservation (cp : CryptoPrims) (cfg : FilterConfig) :
    (∀ msgs : List MqttMsg, (∀ m ∈ msgs, parsesUndecoded m = true) →
      (processAll cp cfg statsInit msgs).total = outcomeSum (processAll cp cfg statsInit msgs))
    ∧ (∀ (stats : Stats) (m : MqttMsg), parsesUndecoded m = true →
      (onMessage cp cfg stats m).1.total = stats.total + 1
      ∧ outcomeSum (onMessage cp cfg stats m).1 = outcomeSum stats + 1) := by
  constructor
  · intro msgs hall
    have h := processAll_counters cp cfg msgs statsInit hall
    rw [h.1, h.2]
    rfl
  · exact onMessage_step cp cfg

/-- Counterexample to C2 as stated: a single malformed message, and
likewise a single well-deserializing message whose packet arrives with
decoded data (which dies in the swallowed ValueError of line 129), each
leave `total` at 1 while every outcome counter is 0, so `total` is not
the sum of the outcome counters after either sequence. -/
theorem c2_counterexample :
    ((processAll cpW ⟨"msh/#", "out", []⟩ statsInit [⟨"t", none⟩]).total = 1
      ∧ outcomeSum (processAll cpW ⟨"msh/#", "out", []⟩ statsInit [⟨"t", none⟩]) = 0)
    ∧ ((processAll cpW ⟨"msh/#", "out", []⟩ statsInit [⟨"msh/a", some envW⟩]).total = 1
      ∧ outcomeSum (processAll cpW ⟨"msh/#", "out", []⟩ statsInit [⟨"msh/a", some envW⟩]) = 0) := by
  exact ⟨⟨rfl, rfl⟩, ⟨rfl, rfl⟩⟩

/-- Witness for C2 at a concrete one-message sequence whose packet
arrives encrypted (undecoded). -/
theorem c2_witness :
    (processAll cpW ⟨"msh/#", "out", []⟩ statsInit [⟨"msh/a", some envE⟩]).total
      = outcomeSum (processAll cpW ⟨"msh/#", "out", []⟩ statsInit [⟨"msh/a", some envE⟩]) :=
  (c2_counter_conservation cpW ⟨"msh/#", "out", []⟩).1 [⟨"msh/a", some envE⟩] (by decide)

/-- C8 (amended): the topic rewrite replaces the first occurrence of the
wildcard-stripped inbound prefix anywhere in the topic with the stripped
outbound prefix, preserving the rest verbatim — as on the specification's
example topic — and returns the topic unchanged exactly when the stripped
inbound prefix occurs nowhere in the topic as a contiguous substring.
(The claim's weaker no-op condition — the prefix not being a literal
prefix of the topic — is refuted by the counterexample: Python
str.replace also rewrites occurrences that are not at the start.) -/
theorem c8_topic_rewrite :
    rewriteTopic "msh/US/NY/2/e/LongFast/!12345678" "msh/US/NY/#" "filtered/msh/US/NY"
      = "filtered/msh/US/NY/2/e/LongFast/!12345678"
    ∧ (∀ topic input_topic output_topic : String,
        containsSeq (rstripChars input_topic ['/', '#']).data topic.data = false →
        rewriteTopic topic input_topic output_topic = topic)
    ∧ (∀ (topic input_topic output_topic : String) (pre post : List Char),
        topic.data = pre ++ (rstripChars input_topic ['/', '#']).data ++ post →
        (∀ pre2 post2 : List Char,
          topic.data = pre2 ++ (rstripChars input_topic ['/', '#']).data ++ post2 →
          pre.length ≤ pre2.length) →
        (rewriteTopic topic input_topic output_topic).data
          = pre ++ (rstripChars output_topic ['/', '#']).data ++ post) := by
  refine ⟨?_, ?_, ?_⟩
  · decide
  · intro t it ot h
    rw [rewriteTopic, pyReplaceFirst, replaceFirstAux_not_contains _ _ _ h]
  · intro t it ot pre post hdecomp hmin
    rw [rewriteTopic, pyReplaceFirst]
    exact replaceFirstAux_first (rstripChars it ['/', '#']).data
      (rstripChars ot ['/', '#']).data pre post t.data hdecomp hmin

/-- Counterexample to C8 as stated: the stripped inbound prefix is not a
literal prefix of this topic, yet the rewrite is not a no-op — Python
str.replace rewrites the first occurrence even in the middle of the
topic. -/
theorem c8_counterexample :
    ("msh/US/NY".data.isPrefixOf "x/msh/US/NY/a".data) = false
    ∧ rewriteTopic "x/msh/US/NY/a" "msh/US/NY/#" "filtered/msh/US/NY" ≠ "x/msh/US/NY/a"
    ∧ rewriteTopic "x/msh/US/NY/a" "msh/US/NY/#" "filtered/msh/US/NY"
      = "x/filtered/msh/US/NY/a" := by
  refine ⟨?_, ?_, ?_⟩
  · decide
  · decide
  · decide

/-- Witness for C8 on concrete topics: a topic without any occurrence is
untouched, and the leftmost occurrence of the stripped prefix is
rewritten. -/
theorem c8_witness :
    rewriteTopic "abc" "msh/US/NY/#" "filtered/msh/US/NY" = "abc"
    ∧ (rewriteTopic "msh/US/NY/x" "msh/US/NY/#" "filtered/msh/US/NY").data
      = [] ++ "filtered/msh/US/NY".data ++ "/x".data :=
  ⟨c8_topic_rewrite.2.1 "abc" "msh/US/NY/#" "filtered/msh/US/NY" (by decide),
   c8_topic_rewrite.2.2 "msh/US/NY/x" "msh/US/NY/#" "filtered/msh/US/NY" [] "/x".data
    (by decide) (fun pre2 _ _ => Nat.zero_le pre2.length)⟩

/-- C9 (amended): when an encrypted packet with non-empty ciphertext
arrives and the key ring is empty, the handler skips decryption entirely:
`decryption_failed` is left unchanged (the claimed increment does not
happen — see the counterexample), the packet stays encrypted, and
admission rejects it as encrypted, so only `total` and
`rejected_encrypted` move and nothing is published. -/
theorem c9_empty_ring (cp : CryptoPrims) (cfg : FilterConfig) (stats : Stats) (m : MqttMsg)
    (env : ServiceEnvelope) (ct : List Nat) :
    cfg.keys = [] → m.payload = some env → env.packet.decoded = none →
    env.packet.encrypted = some ct → ct ≠ [] →
    onMessage cp cfg stats m
      = ({ stats with
            total := stats.total + 1
            rejected_encrypted := stats.rejected_encrypted + 1 }, none) := by
  intro hkeys hpay hdec henc _
  have hpre : preDecrypt cp cfg { stats with total := stats.total + 1 } env
      = (env.packet, { stats with total := stats.total + 1 }) := by
    rw [preDecrypt, if_pos ⟨by simp [hdec], by simp [henc]⟩, if_neg (by simp [hkeys])]
  have hck : checkOkToMqtt { stats with total := stats.total + 1 } env.packet
      = ({ stats with
            total := stats.total + 1
            rejected_encrypted := stats.rejected_encrypted + 1 }, false) := by
    simp [checkOkToMqtt, hdec]
  simp only [onMessage, hpay]
  rw [if_neg (by simp [hdec])]
  simp only [hpre, admission, hck]
  simp

/-- Counterexample to C9 as stated: at a concrete encrypted message with
an empty ring, `decryption_failed` is 0 after processing, not 1. -/
theorem c9_counterexample :
    onMessage cpW ⟨"msh/#", "out", []⟩ statsInit ⟨"msh/a", some envE⟩
      = ({ statsInit with total := 1, rejected_encrypted := 1 }, none)
    ∧ ({ statsInit with total := 1, rejected_encrypted := 1 } : Stats).decryption_failed = 0 := by
  constructor
  · rfl
  · rfl

/-- Witness for C9 at the concrete encrypted message with an empty
ring. -/
theorem c9_witness :
    onMessage cpW ⟨"msh/#", "out", []⟩ statsInit ⟨"msh/a", some envE⟩
      = ({ statsInit with
            total := statsInit.total + 1
            rejected_encrypted := statsInit.rejected_encrypted + 1 }, none) :=
  c9_empty_ring cpW ⟨"msh/#", "out", []⟩ statsInit ⟨"msh/a", some envE⟩ envE [1, 2, 3]
    rfl rfl rfl rfl (by decide)

/-- C10: the handler increments `total` before deserialization, and every
exception raised afterwards is swallowed inside the handler, leaving the
statistics changed only in `total` and publishing nothing.  The two raise
sites of the embedding are covered: deserialization failure
(`payload = none`), and the ValueError that the debug formatting at
mqtt_filter.py line 129 raises for every message whose packet arrives
with decoded data (an invalid literal format specifier in an eagerly
evaluated f-string).  Consequently `total` can strictly exceed the sum of
the outcome counters. -/
theorem c10_exception_swallowed (cp : CryptoPrims) (cfg : FilterConfig) :
    (∀ (stats : Stats) (m : MqttMsg), m.payload = none →
      onMessage cp cfg stats m = ({ stats with total := stats.total + 1 }, none))
    ∧ (∀ (stats : Stats) (m : MqttMsg) (env : ServiceEnvelope),
      m.payload = some env → env.packet.decoded.isSome = true →
      onMessage cp cfg stats m = ({ stats with total := stats.total + 1 }, none))
    ∧ (∃ m : MqttMsg, outcomeSum (onMessage cp cfg statsInit m).1
        < (onMessage cp cfg statsInit m).1.total) := by
  have hmain : ∀ (stats : Stats) (m : MqttMsg), m.payload = none →
      onMessage cp cfg stats m = ({ stats with total := stats.total + 1 }, none) := by
    intro stats m h
    simp only [onMessage, h]
  refine ⟨hmain, ?_, ⟨⟨"t", none⟩, ?_⟩⟩
  · intro stats m env hpay hdec
    simp only [onMessage, hpay]
    rw [if_pos hdec]
  · rw [hmain statsInit ⟨"t", none⟩ rfl]
    norm_num [outcomeSum, statsInit]

/-- Witness for C10 at a concrete malformed message and at a concrete
well-deserializing message arriving with decoded data. -/
theorem c10_witness :
    onMessage cpW ⟨"msh/#", "out", []⟩ statsInit ⟨"t", none⟩
      = ({ statsInit with total := statsInit.total + 1 }, none)
    ∧ onMessage cpW ⟨"msh/#", "out", []⟩ statsInit ⟨"msh/a", some envW⟩
      = ({ statsInit with total := statsInit.total + 1 }, none) :=
  ⟨(c10_exception_swallowed cpW ⟨"msh/#", "out", []⟩).1 statsInit ⟨"t", none⟩ rfl,
   (c10_exception_swallowed cpW ⟨"msh/#", "out", []⟩).2.1 statsInit ⟨"msh/a", some envW⟩ envW
    rfl rfl⟩
